import Mathlib

/-!
Shallow embedding of deps/v8/tools/eval_gc_nvp.py, the V8 GC NVP analysis tool:
linear and log2 bucketing strategies, the per-bucket histogram, the per-key
category aggregator and the record-processing driver.

Python floats are modelled as rationals with exact arithmetic; Python
exceptions (ValueError from float parsing, math domain errors from log,
ZeroDivisionError, IndexError on an empty list) are modelled by Option/Except
results.  Rendered text is modelled structurally: one value per formatted
line, carrying exactly the data interpolated into the format string.
-/

namespace EvalGcNvp

/-- Truncation of a rational toward zero, the behaviour of Python int() applied
to a float: floor for non-negative arguments, ceiling for negative ones. -/
def truncQ (q : ℚ) : ℤ := if 0 ≤ q then ⌊q⌋ else ⌈q⌉

/-- Fuel-driven base-2 logarithm on naturals: counts how often the argument can
be halved before reaching 1.  Structural in the fuel so that it reduces in the
kernel; natLog2 gives the fuel n, which always suffices. -/
def natLog2Aux : ℕ → ℕ → ℕ
  | _, 0 => 0
  | _, 1 => 0
  | 0, _ => 0
  | fuel + 1, n => natLog2Aux fuel (n / 2) + 1

/-- Floor of the base-2 logarithm of a natural number (0 for 0). -/
def natLog2 (n : ℕ) : ℕ := natLog2Aux n n

/-- Python int(log(v, 2)) for a positive rational v: the base-2 logarithm
truncated toward zero.  For v ≥ 1 this is the unique k with 2 ^ k ≤ v < 2 ^ (k+1),
computed as the floor log of ⌊v⌋; for 0 < v < 1 the logarithm is negative and
truncation toward zero gives the negation of the floor log of ⌊v⁻¹⌋. -/
def log2trunc (v : ℚ) : ℤ :=
  if 1 ≤ v then (natLog2 ⌊v⌋.toNat : ℤ) else -(natLog2 ⌊v⁻¹⌋.toNat : ℤ)

/-- Python class LinearBucket (eval_gc_nvp.py lines 17-25). -/
structure LinearBucket where
  granularity : ℚ
deriving DecidableEq

/-- LinearBucket.value_to_bucket: int(value / granularity).  The division
raises ZeroDivisionError when granularity is 0, modelled as none. -/
def LinearBucket.value_to_bucket (b : LinearBucket) (value : ℚ) : Option ℤ :=
  if b.granularity = 0 then none else some (truncQ (value / b.granularity))

/-- LinearBucket.bucket_to_range: (bucket * granularity, (bucket+1) * granularity). -/
def LinearBucket.bucket_to_range (b : LinearBucket) (bucket : ℤ) : ℚ × ℚ :=
  ((bucket : ℚ) * b.granularity, ((bucket : ℚ) + 1) * b.granularity)

/-- Python class Log2Bucket (eval_gc_nvp.py lines 28-43).  The start field
holds the offset int(log(start, 2)) - 1 computed by the constructor. -/
structure Log2Bucket where
  start : ℤ
deriving DecidableEq

/-- Log2Bucket.__init__: self.start = int(log(start, 2)) - 1.  log raises a
math domain error for start ≤ 0, modelled as none. -/
def Log2Bucket.init (start : ℚ) : Option Log2Bucket :=
  if start ≤ 0 then none else some ⟨log2trunc start - 1⟩

/-- Log2Bucket.value_to_bucket: index = int(log(value, 2)) - start, clamped to
0 from below.  log raises a math domain error for value ≤ 0, modelled as none. -/
def Log2Bucket.value_to_bucket (b : Log2Bucket) (value : ℚ) : Option ℤ :=
  if value ≤ 0 then none
  else
    let index := log2trunc value - b.start
    some (if index < 0 then 0 else index)

/-- Log2Bucket.bucket_to_range: (0, 2^(start+1)) for bucket 0, otherwise
(2^(bucket+start), 2^(bucket+start+1)). -/
def Log2Bucket.bucket_to_range (b : Log2Bucket) (bucket : ℤ) : ℚ × ℚ :=
  if bucket = 0 then ((0 : ℚ), (2 : ℚ) ^ (b.start + 1))
  else ((2 : ℚ) ^ (bucket + b.start), (2 : ℚ) ^ (bucket + b.start + 1))

/-- The bucketing strategy a Histogram is parameterised by (duck typing in the
source: any object with value_to_bucket and bucket_to_range). -/
inductive BucketTrait where
  | linear : LinearBucket → BucketTrait
  | log2 : Log2Bucket → BucketTrait
deriving DecidableEq

def BucketTrait.value_to_bucket : BucketTrait → ℚ → Option ℤ
  | .linear b, v => b.value_to_bucket v
  | .log2 b, v => b.value_to_bucket v

def BucketTrait.bucket_to_range : BucketTrait → ℤ → ℚ × ℚ
  | .linear b, i => b.bucket_to_range i
  | .log2 b, i => b.bucket_to_range i

/-- The Python dict mapping bucket index to count, as an association list with
pairwise-distinct keys. -/
abbrev Dict := List (ℤ × ℕ)

/-- Dict lookup: histogram[index], none when the key is absent. -/
def dGet (d : Dict) (k : ℤ) : Option ℕ := (d.find? fun p => p.1 == k).map Prod.snd

/-- Dict store: histogram[index] = v, overwriting an existing binding or
appending a new one. -/
def dSet (d : Dict) (k : ℤ) (v : ℕ) : Dict :=
  match d with
  | [] => [(k, v)]
  | p :: rest => if p.1 = k then (k, v) :: rest else p :: dSet rest k v

/-- Increment: histogram[index] += 1, a read of the stored count followed by a
store of its successor (the read never defaults, the caller just initialised
the entry). -/
def dIncr (d : Dict) (k : ℤ) : Dict := dSet d k ((dGet d k).getD 0 + 1)

/-- Total of all counts stored in the bucket map. -/
def sumCounts (d : Dict) : ℕ := (d.map Prod.snd).sum

/-- Python class Histogram (eval_gc_nvp.py lines 46-73). -/
structure Histogram where
  bucket_trait : BucketTrait
  fill_empty : Bool
  histogram : Dict
deriving DecidableEq

/-- Histogram.add: index = bucket_trait.value_to_bucket(key); initialise the
entry to 0 if absent; then increment it.  Fails when value_to_bucket raises. -/
def Histogram.add (h : Histogram) (key : ℚ) : Option Histogram :=
  (h.bucket_trait.value_to_bucket key).map fun index =>
    { h with histogram :=
        dIncr (if dGet h.histogram index = none then dSet h.histogram index 0
          else h.histogram) index }

/-- One rendered histogram line: the data interpolated into the format string
of the two-per-branch format calls in Histogram.__str__. -/
structure HLine where
  lo : ℚ
  hi : ℚ
  count : ℕ
deriving DecidableEq

/-- The loop of Histogram.__str__: iterate bucket indices in ascending order,
popping the head of the sorted key list when it is reached; an index that is
the current head is printed with its recorded count, any other index is
printed with count 0 when fill_empty is set and skipped otherwise.  Reading
keys[0] from an exhausted key list raises IndexError, modelled as none. -/
def histLines (t : BucketTrait) (d : Dict) (fill : Bool) : List ℤ → List ℤ → Option (List HLine)
  | [], _ => some []
  | i :: rest, keys =>
    match keys with
    | [] => none
    | k :: ktail =>
      let r := t.bucket_to_range i
      if i = k then
        (histLines t d fill rest ktail).map fun ls => ⟨r.1, r.2, (dGet d i).getD 0⟩ :: ls
      else if fill then
        (histLines t d fill rest (k :: ktail)).map fun ls => ⟨r.1, r.2, 0⟩ :: ls
      else histLines t d fill rest (k :: ktail)

/-- The integer interval [lo, hi) as an ascending list, Python range(lo, hi). -/
def intRange (lo hi : ℤ) : List ℤ := (List.range (hi - lo).toNat).map fun n : ℕ => lo + (n : ℤ)

/-- keys = self.histogram.keys(); keys.sort(). -/
def Histogram.sortedKeys (h : Histogram) : List ℤ :=
  List.insertionSort (· ≤ ·) (h.histogram.map Prod.fst)

/-- Histogram.__str__: sort the keys, read the largest via keys[len(keys)-1]
(IndexError on an empty histogram, modelled as none), then run the rendering
loop over range(0, last + 1). -/
def Histogram.render (h : Histogram) : Option (List HLine) :=
  match h.sortedKeys with
  | [] => none
  | k :: ks =>
    histLines h.bucket_trait h.histogram h.fill_empty
      (intRange 0 ((k :: ks).getLast (List.cons_ne_nil k ks) + 1)) (k :: ks)

/-- The exceptions that can escape record processing: ValueError from float()
on a non-numeric field, and the math domain / zero-division errors raised
inside Histogram.add. -/
inductive RunError where
  | parseError
  | mathError
deriving DecidableEq

/-- Modelled from the spec: split_nvp (imported from gc_nvp_common, not part
of this tree) parses one line into a record mapping field names to field
values.  Each field value is carried as the outcome of Python float() on its
text: some q when the text parses as the number q, none when float() would
raise ValueError. -/
abbrev Entry := List (String × Option ℚ)

/-- Record lookup: entry[key] guarded by the membership test, none when the
key is absent from the record. -/
def entryLookup (e : Entry) (k : String) : Option (Option ℚ) :=
  (e.find? fun p => p.1 == k).map Prod.snd

/-- Python class Category (eval_gc_nvp.py lines 76-97). -/
structure Category where
  key : String
  values : List ℚ
  histogram : Option Histogram
deriving DecidableEq

/-- Category.process_entry: if the key is present, parse the value with
float() (ValueError on non-numeric text), append it to the observed values,
and forward it to the histogram when one is configured. -/
def Category.process_entry (c : Category) (entry : Entry) : Except RunError Category :=
  match entryLookup entry c.key with
  | none => .ok c
  | some none => .error .parseError
  | some (some v) =>
    match c.histogram with
    | none => .ok { c with values := c.values ++ [v] }
    | some hg =>
      match hg.add v with
      | none => .error .mathError
      | some hg1 => .ok { c with values := c.values ++ [v], histogram := some hg1 }

/-- A sequence of process_entry calls on one Category; the first exception
aborts the sequence. -/
def Category.processAll (c : Category) : List Entry → Except RunError Category
  | [] => .ok c
  | e :: es =>
    match c.process_entry e with
    | .error err => .error err
    | .ok c1 => c1.processAll es

/-- One element of the list joined by Category.__str__: the key name line, the
len line, the min/max/avg lines, or the single string produced by rendering
the owned histogram. -/
inductive CatLine where
  | keyLine : String → CatLine
  | lenLine : ℕ → CatLine
  | minLine : ℚ → CatLine
  | maxLine : ℚ → CatLine
  | avgLine : ℚ → CatLine
  | histBlock : List HLine → CatLine
deriving DecidableEq

/-- Category.__str__: key name and len always; min, max, avg and the rendered
histogram (when configured) only when at least one value was observed.
Python min/max on a non-empty list are left folds of the binary min/max. -/
def Category.render (c : Category) : Option (List CatLine) :=
  match c.values with
  | [] => some [CatLine.keyLine c.key, CatLine.lenLine 0]
  | v :: vs =>
    let stats := [CatLine.keyLine c.key, CatLine.lenLine (v :: vs).length,
      CatLine.minLine (vs.foldl min v), CatLine.maxLine (vs.foldl max v),
      CatLine.avgLine ((v :: vs).sum / ((v :: vs).length : ℚ))]
    match c.histogram with
    | none => some stats
    | some hg => hg.render.map fun ls => stats ++ [CatLine.histBlock ls]

/-- The parsed command-line arguments of main (eval_gc_nvp.py lines 100-124). -/
structure Args where
  keys : List String
  histogram_type : String
  linear_histogram_granularity : ℤ
  log2_histogram_init_bucket : ℤ
  histogram_omit_empty : Bool
  histogram : Bool
deriving DecidableEq

/-- Lines 126-133 of main: build the histogram template before any input is
read.  none models an uncaught exception during startup; some none means
histograms are disabled by --no-histogram. -/
def setupHistogram (a : Args) : Option (Option Histogram) :=
  if a.histogram then
    (if a.histogram_type = "log2" then
        (Log2Bucket.init (a.log2_histogram_init_bucket : ℚ)).map BucketTrait.log2
      else some (BucketTrait.linear ⟨(a.linear_histogram_granularity : ℚ)⟩)).map
      fun t => some (Histogram.mk t (!a.histogram_omit_empty) [])
  else some none

/-- Lines 135-136 of main: one fresh Category per key, each owning a deep copy
of the histogram template. -/
def mkCategories (keys : List String) (h : Option Histogram) : List Category :=
  keys.map fun k => ⟨k, [], h⟩

/-- The inner loop of main: route one record to every Category in order; an
exception from process_entry propagates and aborts the run. -/
def processRecord : List Category → Entry → Except RunError (List Category)
  | [], _ => .ok []
  | c :: cs, e =>
    match c.process_entry e with
    | .error err => .error err
    | .ok c1 =>
      match processRecord cs e with
      | .error err => .error err
      | .ok cs1 => .ok (c1 :: cs1)

/-- The read loop of main (lines 138-144): process every input record in
order; the final Category states are what main then renders. -/
def runCats (cats : List Category) : List Entry → Except RunError (List Category)
  | [] => .ok cats
  | e :: es =>
    match processRecord cats e with
    | .error err => .error err
    | .ok cats1 => runCats cats1 es

/-- The content of the line Histogram.__str__ emits for bucket index j, given the list
of populated keys: the recorded count when j is populated, a zero-count line when fill
is set, nothing otherwise.  This is the per-index description of the rendering loop
against which the loop itself is verified. -/
def lineAt (t : BucketTrait) (d : Dict) (fill : Bool) (keys : List ℤ) (j : ℤ) : Option HLine :=
  if j ∈ keys then
    some ⟨(t.bucket_to_range j).1, (t.bucket_to_range j).2, (dGet d j).getD 0⟩
  else if fill then some ⟨(t.bucket_to_range j).1, (t.bucket_to_range j).2, 0⟩
  else none

/-- A concrete reachable Histogram used to instantiate the general theorems:
two values recorded in bucket 0 of a linear granularity-5 histogram. -/
def sampleHist : Histogram := ⟨.linear ⟨5⟩, true, [(0, 2)]⟩

/-- A concrete reachable Category owning sampleHist, with observed values 3 and 1. -/
def sampleCat : Category := ⟨"k", [3, 1], some sampleHist⟩

instance {ε α : Type} [DecidableEq ε] [DecidableEq α] : DecidableEq (Except ε α) := fun x y =>
  match x, y with
  | .ok a, .ok b =>
    if h : a = b then .isTrue (by rw [h]) else .isFalse (by intro hc; cases hc; exact h rfl)
  | .error a, .error b =>
    if h : a = b then .isTrue (by rw [h]) else .isFalse (by intro hc; cases hc; exact h rfl)
  | .ok _, .error _ => .isFalse (by intro hc; cases hc)
  | .error _, .ok _ => .isFalse (by intro hc; cases hc)


/-! ### Helper lemmas about truncation -/

theorem truncQ_mono {q r : ℚ} (h : q ≤ r) : truncQ q ≤ truncQ r := by
  unfold truncQ
  by_cases hq : 0 ≤ q <;> by_cases hr : 0 ≤ r
  · simp only [if_pos hq, if_pos hr]
    exact Int.floor_le_floor h
  · exact absurd (le_trans hq h) hr
  · simp only [if_neg hq, if_pos hr]
    have h1 : ⌈q⌉ ≤ (0 : ℤ) := Int.ceil_le.mpr (by push_cast; exact le_of_not_le hq)
    have h2 : (0 : ℤ) ≤ ⌊r⌋ := Int.le_floor.mpr (by push_cast; exact hr)
    omega
  · simp only [if_neg hq, if_neg hr]
    exact Int.ceil_le_ceil h

theorem truncQ_of_nonneg {q : ℚ} (h : 0 ≤ q) : truncQ q = ⌊q⌋ := if_pos h

theorem truncQ_of_neg {q : ℚ} (h : q < 0) : truncQ q = ⌈q⌉ := if_neg (not_le.mpr h)

/-! ### C4: linear value_to_bucket truncates toward zero, it is not the floor -/

/-- C4 counterexample: with granularity 5 the value -3 is mapped to bucket 0, whereas
the claimed floor formula gives -1, so value_to_bucket differs from floor (v / g) and a
negative value that is not a bucket boundary does not produce a negative index. -/
theorem C4_counterexample :
    (LinearBucket.mk 5).value_to_bucket (-3) = some 0 ∧ ⌊((-3 : ℚ) / 5)⌋ = -1 := by
  with_unfolding_all decide

/-- C4 (amended): for the linear strategy with granularity g > 0, value_to_bucket v is
v / g truncated toward zero, i.e. floor (v / g) for v ≥ 0 but ceil (v / g) for v < 0, so
every value in (-g, 0) lands in bucket 0; bucket_to_range i = (i * g, (i+1) * g) for every
integer index i. -/
theorem C4_linear_value_to_bucket (g v : ℚ) (i : ℤ) (hg : 0 < g) :
    (LinearBucket.mk g).value_to_bucket v = some (truncQ (v / g)) ∧
    (0 ≤ v → truncQ (v / g) = ⌊v / g⌋) ∧
    (v < 0 → truncQ (v / g) = ⌈v / g⌉) ∧
    (-g < v → v < 0 → (LinearBucket.mk g).value_to_bucket v = some 0) ∧
    (LinearBucket.mk g).bucket_to_range i = ((i : ℚ) * g, ((i : ℚ) + 1) * g) := by
  have hg0 : g ≠ 0 := ne_of_gt hg
  have hvb : (LinearBucket.mk g).value_to_bucket v = some (truncQ (v / g)) := by
    simp [LinearBucket.value_to_bucket, hg0]
  refine ⟨hvb, ?_, ?_, ?_, rfl⟩
  · intro hv
    exact truncQ_of_nonneg (div_nonneg hv (le_of_lt hg))
  · intro hv
    exact truncQ_of_neg (div_neg_of_neg_of_pos hv hg)
  · intro hlo hhi
    rw [hvb, truncQ_of_neg (div_neg_of_neg_of_pos hhi hg)]
    have h1 : (-1 : ℚ) < v / g := by
      rw [show (-1 : ℚ) = -g / g by field_simp]
      exact div_lt_div_of_pos_right hlo hg
    have h2 : v / g ≤ 0 := le_of_lt (div_neg_of_neg_of_pos hhi hg)
    have : ⌈v / g⌉ = 0 := Int.ceil_eq_zero_iff.mpr ⟨h1, h2⟩
    rw [this]

theorem C4_linear_value_to_bucket_witness :
    (LinearBucket.mk 5).value_to_bucket 7 = some (truncQ (7 / 5)) ∧
    (0 ≤ (7 : ℚ) → truncQ ((7 : ℚ) / 5) = ⌊(7 : ℚ) / 5⌋) ∧
    ((7 : ℚ) < 0 → truncQ ((7 : ℚ) / 5) = ⌈(7 : ℚ) / 5⌉) ∧
    (-(5 : ℚ) < 7 → (7 : ℚ) < 0 → (LinearBucket.mk 5).value_to_bucket 7 = some 0) ∧
    (LinearBucket.mk 5).bucket_to_range 3 = (((3 : ℤ) : ℚ) * 5, (((3 : ℤ) : ℚ) + 1) * 5) :=
  C4_linear_value_to_bucket 5 7 3 (by norm_num)

/-! ### C5: linear value_to_bucket is monotone and its bucket range contains the value -/

/-- C5: for granularity g > 0, value_to_bucket is monotonically non-decreasing, and for
every v ≥ 0 the half-open range of the bucket of v contains v. -/
theorem C5_linear_monotone_and_contains (g : ℚ) (hg : 0 < g) :
    (∀ v1 v2 i1 i2, v1 ≤ v2 →
      (LinearBucket.mk g).value_to_bucket v1 = some i1 →
      (LinearBucket.mk g).value_to_bucket v2 = some i2 → i1 ≤ i2) ∧
    (∀ v i, 0 ≤ v → (LinearBucket.mk g).value_to_bucket v = some i →
      ((LinearBucket.mk g).bucket_to_range i).1 ≤ v ∧
        v < ((LinearBucket.mk g).bucket_to_range i).2) := by
  have hg0 : g ≠ 0 := ne_of_gt hg
  constructor
  · intro v1 v2 i1 i2 hle h1 h2
    simp only [LinearBucket.value_to_bucket, if_neg hg0, Option.some.injEq] at h1 h2
    rw [← h1, ← h2]
    exact truncQ_mono (div_le_div_of_nonneg_right hle (le_of_lt hg))
  · intro v i hv hvb
    simp only [LinearBucket.value_to_bucket, if_neg hg0, Option.some.injEq] at hvb
    have hfl : i = ⌊v / g⌋ := by
      rw [← hvb, truncQ_of_nonneg (div_nonneg hv (le_of_lt hg))]
    subst hfl
    constructor
    · calc ((⌊v / g⌋ : ℚ)) * g ≤ (v / g) * g := by
            exact mul_le_mul_of_nonneg_right (Int.floor_le _) (le_of_lt hg)
        _ = v := div_mul_cancel₀ v hg0
    · calc v = (v / g) * g := (div_mul_cancel₀ v hg0).symm
        _ < ((⌊v / g⌋ : ℚ) + 1) * g := by
            refine mul_lt_mul_of_pos_right ?_ hg
            exact_mod_cast Int.lt_floor_add_one (v / g)

theorem C5_linear_monotone_and_contains_witness :
    ((LinearBucket.mk 5).bucket_to_range 2).1 ≤ 12 ∧
      (12 : ℚ) < ((LinearBucket.mk 5).bucket_to_range 2).2 :=
  (C5_linear_monotone_and_contains 5 (by norm_num)).2 12 2 (by norm_num)
    (by with_unfolding_all decide)

/-! ### C10: log2 value_to_bucket is defined exactly on positive values -/

/-- C10: the log2 strategy raises a math domain error for every value ≤ 0 (no
special-casing to bucket 0), and succeeds for every value > 0, so v > 0 is the
precise precondition of this interface. -/
theorem C10_log2_domain (b : Log2Bucket) (v : ℚ) :
    (v ≤ 0 → b.value_to_bucket v = none) ∧
    (0 < v → ∃ i, b.value_to_bucket v = some i) := by
  constructor
  · intro h
    simp [Log2Bucket.value_to_bucket, h]
  · intro h
    refine ⟨if log2trunc v - b.start < 0 then 0 else log2trunc v - b.start, ?_⟩
    unfold Log2Bucket.value_to_bucket
    rw [if_neg (not_le.mpr h)]

theorem C10_log2_domain_witness :
    ((Log2Bucket.mk 5).value_to_bucket (-1) = none) ∧
      (∃ i, (Log2Bucket.mk 5).value_to_bucket 1 = some i) :=
  ⟨(C10_log2_domain ⟨5⟩ (-1)).1 (by norm_num), (C10_log2_domain ⟨5⟩ 1).2 (by norm_num)⟩


/-! ### C6: the log2 strategy configured with start = 64 -/

/-- C6 counterexample: the claim says every value in the half-open interval from 0 to 64
maps to bucket 0, but the value 0, which lies in that interval, raises a math domain
error in value_to_bucket instead of mapping to any bucket. -/
theorem C6_counterexample :
    Log2Bucket.init 64 = some ⟨5⟩ ∧ (Log2Bucket.mk 5).value_to_bucket 0 = none := by
  with_unfolding_all decide

/-- C6 (amended): with start = 64 the stored offset is floor (log2 64) - 1 = 5; every
value in the OPEN interval (0, 64) maps to bucket 0, value 64 maps to bucket 1, and
bucket_to_range 0 = (0, 64); value 0 raises a math domain error rather than mapping to
bucket 0, so the claimed interval must exclude 0. -/
theorem C6_log2_start64 :
    Log2Bucket.init 64 = some ⟨5⟩ ∧
    (∀ v : ℚ, 0 < v → v < 64 → (Log2Bucket.mk 5).value_to_bucket v = some 0) ∧
    (Log2Bucket.mk 5).value_to_bucket 64 = some 1 ∧
    (Log2Bucket.mk 5).bucket_to_range 0 = (0, 64) ∧
    (Log2Bucket.mk 5).value_to_bucket 0 = none := by
  refine ⟨by with_unfolding_all decide, ?_, by with_unfolding_all decide,
    by with_unfolding_all decide, by with_unfolding_all decide⟩
  intro v hv0 hv64
  have hle : log2trunc v ≤ 5 := by
    unfold log2trunc
    by_cases h1 : 1 ≤ v
    · rw [if_pos h1]
      have hfl : ⌊v⌋ ≤ 63 := by
        have : ⌊v⌋ < (64 : ℤ) := Int.floor_lt.mpr (by push_cast; exact hv64)
        omega
      have hfn : ⌊v⌋.toNat ≤ 63 := Int.toNat_le.mpr (by omega)
      have hsmall : ∀ n : ℕ, n ≤ 63 → natLog2 n ≤ 5 := by decide
      have := hsmall ⌊v⌋.toNat hfn
      omega
    · rw [if_neg h1]
      have : (0 : ℤ) ≤ (natLog2 ⌊v⁻¹⌋.toNat : ℤ) := Int.ofNat_nonneg _
      omega
  unfold Log2Bucket.value_to_bucket
  rw [if_neg (not_le.mpr hv0)]
  simp only [Option.some.injEq]
  omega

theorem C6_log2_start64_witness : (Log2Bucket.mk 5).value_to_bucket 32 = some 0 :=
  C6_log2_start64.2.1 32 (by norm_num) (by norm_num)

/-! ### C7: rendering an empty Histogram -/

/-- C7 counterexample: rendering a Histogram on which no add call has been made raises
an IndexError (keys[len(keys)-1] on the empty key list) instead of succeeding with
empty output. -/
theorem C7_counterexample :
    (Histogram.mk (.linear ⟨5⟩) true []).render = none ∧
      (Histogram.mk (.linear ⟨5⟩) true []).render ≠ some [] := by
  with_unfolding_all decide

/-- C7 (amended): for every bucketing strategy and fill flag, render on a Histogram with
no recorded values fails (the source reads keys[len(keys)-1] from the empty sorted key
list, raising IndexError) instead of producing empty output. -/
theorem C7_empty_histogram_render (t : BucketTrait) (fe : Bool) :
    (Histogram.mk t fe []).render = none := rfl

/-! ### C9: startup validation of the bucketing configuration -/

/-- C9 counterexample: a configuration with linear granularity 0 (non-positive) is
accepted at startup: setupHistogram succeeds instead of rejecting it. -/
theorem C9_counterexample :
    setupHistogram ⟨["k"], "linear", 0, 64, false, true⟩ =
      some (some ⟨.linear ⟨0⟩, true, []⟩) := by
  with_unfolding_all decide

/-- C9 (amended): only the log2 side of the claim holds.  A non-positive log2 init
bucket makes startup fail (uncaught math domain error in the Log2Bucket constructor,
before any input is read), but a non-positive linear granularity is never rejected at
startup: setup succeeds for every non-log2 configuration, granularity 0 only fails later
at the first value_to_bucket call (ZeroDivisionError), and a negative granularity never
raises at all. -/
theorem C9_startup_validation (a : Args) :
    (a.histogram = true → a.histogram_type = "log2" → a.log2_histogram_init_bucket ≤ 0 →
      setupHistogram a = none) ∧
    (a.histogram = true → a.histogram_type ≠ "log2" → ∃ r, setupHistogram a = some (some r)) ∧
    (∀ v : ℚ, (LinearBucket.mk 0).value_to_bucket v = none) ∧
    (∀ (v g : ℚ), g < 0 → ∃ i, (LinearBucket.mk g).value_to_bucket v = some i) := by
  refine ⟨?_, ?_, ?_, ?_⟩
  · intro hh ht hb
    have hcast : (a.log2_histogram_init_bucket : ℚ) ≤ 0 := by exact_mod_cast hb
    unfold setupHistogram
    rw [if_pos hh, if_pos ht]
    unfold Log2Bucket.init
    rw [if_pos hcast]
    rfl
  · intro hh ht
    refine ⟨Histogram.mk (BucketTrait.linear ⟨(a.linear_histogram_granularity : ℚ)⟩)
      (!a.histogram_omit_empty) [], ?_⟩
    unfold setupHistogram
    rw [if_pos hh, if_neg ht]
    rfl
  · intro v
    unfold LinearBucket.value_to_bucket
    rw [if_pos rfl]
  · intro v g hg
    exact ⟨truncQ (v / g), by unfold LinearBucket.value_to_bucket; rw [if_neg (ne_of_lt hg)]⟩

theorem C9_startup_validation_witness :
    setupHistogram ⟨["k"], "log2", 5, 0, false, true⟩ = none ∧
      (LinearBucket.mk 0).value_to_bucket 10 = none :=
  ⟨(C9_startup_validation ⟨["k"], "log2", 5, 0, false, true⟩).1 rfl rfl (by norm_num),
    (C9_startup_validation ⟨["k"], "log2", 5, 0, false, true⟩).2.2.1 10⟩


/-! ### Dictionary lemmas -/

theorem dGet_nil (k : ℤ) : dGet [] k = none := rfl

theorem dGet_cons_self {p : ℤ × ℕ} {rest : Dict} {k : ℤ} (h : p.1 = k) :
    dGet (p :: rest) k = some p.2 := by
  unfold dGet
  rw [List.find?_cons_of_pos _ (by simp [h])]
  rfl

theorem dGet_cons_ne {p : ℤ × ℕ} {rest : Dict} {k : ℤ} (h : p.1 ≠ k) :
    dGet (p :: rest) k = dGet rest k := by
  unfold dGet
  rw [List.find?_cons_of_neg _ (by simp [h])]

theorem dGet_dSet_self (d : Dict) (k : ℤ) (v : ℕ) : dGet (dSet d k v) k = some v := by
  induction d with
  | nil => exact dGet_cons_self rfl
  | cons p rest ih =>
    by_cases h : p.1 = k
    · simp only [dSet, if_pos h]
      exact dGet_cons_self rfl
    · simp only [dSet, if_neg h]
      rw [dGet_cons_ne h]
      exact ih

theorem sumCounts_cons (p : ℤ × ℕ) (d : Dict) : sumCounts (p :: d) = p.2 + sumCounts d := by
  simp [sumCounts]

theorem sumCounts_dSet_of_none {d : Dict} {k : ℤ} (v : ℕ) (h : dGet d k = none) :
    sumCounts (dSet d k v) = sumCounts d + v := by
  induction d with
  | nil => simp [dSet, sumCounts]
  | cons p rest ih =>
    by_cases hp : p.1 = k
    · rw [dGet_cons_self hp] at h
      cases h
    · rw [dGet_cons_ne hp] at h
      simp only [dSet, if_neg hp, sumCounts_cons]
      rw [ih h]
      omega

theorem sumCounts_dSet_of_some {d : Dict} {k : ℤ} {c : ℕ} (v : ℕ) (h : dGet d k = some c) :
    sumCounts (dSet d k v) + c = sumCounts d + v := by
  induction d with
  | nil => cases h
  | cons p rest ih =>
    by_cases hp : p.1 = k
    · rw [dGet_cons_self hp] at h
      injection h with h2
      simp only [dSet, if_pos hp, sumCounts_cons]
      omega
    · rw [dGet_cons_ne hp] at h
      simp only [dSet, if_neg hp, sumCounts_cons]
      have := ih h
      omega

theorem sumCounts_init_entry (d : Dict) (k : ℤ) :
    sumCounts (if dGet d k = none then dSet d k 0 else d) = sumCounts d ∧
      ∃ c, dGet (if dGet d k = none then dSet d k 0 else d) k = some c := by
  by_cases hg : dGet d k = none
  · rw [if_pos hg]
    refine ⟨?_, 0, dGet_dSet_self d k 0⟩
    rw [sumCounts_dSet_of_none 0 hg]
    omega
  · rw [if_neg hg]
    exact ⟨rfl, Option.ne_none_iff_exists'.mp hg⟩

theorem sumCounts_dIncr {d : Dict} {k : ℤ} {c : ℕ} (h : dGet d k = some c) :
    sumCounts (dIncr d k) = sumCounts d + 1 := by
  unfold dIncr
  rw [h]
  simp only [Option.getD_some]
  have := sumCounts_dSet_of_some (c + 1) h
  omega

/-! ### C1: histogram totals track the observed-value count -/

theorem Histogram.add_sumCounts {h h1 : Histogram} {q : ℚ} (hadd : h.add q = some h1) :
    sumCounts h1.histogram = sumCounts h.histogram + 1 := by
  unfold Histogram.add at hadd
  cases hvb : h.bucket_trait.value_to_bucket q with
  | none =>
    rw [hvb] at hadd
    cases hadd
  | some idx =>
    rw [hvb] at hadd
    simp only [Option.map_some', Option.some.injEq] at hadd
    obtain ⟨hsum, c, hc⟩ := sumCounts_init_entry h.histogram idx
    rw [← hadd]
    show sumCounts (dIncr _ idx) = _
    rw [sumCounts_dIncr hc, hsum]

theorem process_entry_hist_sum {c c1 : Category} {e : Entry}
    (hc : ∃ hg, c.histogram = some hg ∧ sumCounts hg.histogram = c.values.length)
    (h : c.process_entry e = .ok c1) :
    ∃ hg, c1.histogram = some hg ∧ sumCounts hg.histogram = c1.values.length := by
  obtain ⟨hg, hhg, hsum⟩ := hc
  cases hlk : entryLookup e c.key with
  | none =>
    simp only [Category.process_entry, hlk] at h
    injection h with h2
    subst h2
    exact ⟨hg, hhg, hsum⟩
  | some ov =>
    cases ov with
    | none =>
      simp only [Category.process_entry, hlk] at h
      cases h
    | some v =>
      cases hadd : hg.add v with
      | none =>
        simp only [Category.process_entry, hlk, hhg, hadd] at h
        cases h
      | some hg1 =>
        simp only [Category.process_entry, hlk, hhg, hadd] at h
        injection h with h2
        subst h2
        refine ⟨hg1, rfl, ?_⟩
        show sumCounts hg1.histogram = (c.values ++ [v]).length
        rw [Histogram.add_sumCounts hadd, hsum]
        simp

theorem processAll_hist_sum : ∀ {es : List Entry} {c c1 : Category},
    (∃ hg, c.histogram = some hg ∧ sumCounts hg.histogram = c.values.length) →
    c.processAll es = .ok c1 →
    ∃ hg, c1.histogram = some hg ∧ sumCounts hg.histogram = c1.values.length := by
  intro es
  induction es with
  | nil =>
    intro c c1 hc h
    unfold Category.processAll at h
    injection h with h2
    subst h2
    exact hc
  | cons e es ih =>
    intro c c1 hc h
    unfold Category.processAll at h
    cases hpe : c.process_entry e with
    | error err =>
      rw [hpe] at h
      cases h
    | ok cm =>
      rw [hpe] at h
      exact ih (process_entry_hist_sum hc hpe) h

/-- C1: for a fresh Category owning a fresh Histogram, after any sequence of
process_entry calls that completes without an exception, the sum of the counts stored in
the bucket map equals the length of the observed-value sequence, exactly. -/
theorem C1_hist_total_eq_count (key : String) (t : BucketTrait) (fe : Bool)
    (es : List Entry) (c1 : Category)
    (h : (Category.mk key [] (some (Histogram.mk t fe []))).processAll es = .ok c1) :
    ∃ hg, c1.histogram = some hg ∧ sumCounts hg.histogram = c1.values.length := by
  refine processAll_hist_sum ?_ h
  exact ⟨⟨t, fe, []⟩, rfl, rfl⟩

theorem C1_hist_total_eq_count_witness :
    ∃ hg, (Category.mk "pause" [10, 20, 5]
        (some ⟨.linear ⟨5⟩, true, [(2, 1), (4, 1), (1, 1)]⟩)).histogram = some hg ∧
      sumCounts hg.histogram =
        (Category.mk "pause" [10, 20, 5]
          (some ⟨.linear ⟨5⟩, true, [(2, 1), (4, 1), (1, 1)]⟩)).values.length :=
  C1_hist_total_eq_count "pause" (.linear ⟨5⟩) true
    [[("pause", some 10), ("type", none)], [("pause", some 20)], [("pause", some 5)]] _
    (by with_unfolding_all decide)


/-! ### C8: a parse failure aborts the whole run -/

theorem process_entry_parse_aborts {c : Category} {e : Entry}
    (h : entryLookup e c.key = some none) :
    c.process_entry e = .error .parseError := by
  simp only [Category.process_entry, h]

theorem processRecord_error {cats : List Category} {e : Entry} {c : Category}
    (hc : c ∈ cats) (herr : ∃ err, c.process_entry e = .error err) :
    ∃ err, processRecord cats e = .error err := by
  induction cats with
  | nil => cases hc
  | cons hd tl ih =>
    cases hpe : hd.process_entry e with
    | error err => exact ⟨err, by simp only [processRecord, hpe]⟩
    | ok hd1 =>
      rcases List.mem_cons.mp hc with rfl | hmem
      · obtain ⟨err, herr2⟩ := herr
        rw [hpe] at herr2
        cases herr2
      · obtain ⟨err, herr2⟩ := ih hmem
        refine ⟨err, ?_⟩
        simp only [processRecord, hpe, herr2]

theorem runCats_append (cats : List Category) (es1 es2 : List Entry) :
    runCats cats (es1 ++ es2) =
      match runCats cats es1 with
      | .error err => .error err
      | .ok cs => runCats cs es2 := by
  induction es1 generalizing cats with
  | nil => simp [runCats]
  | cons e es ih =>
    cases hpr : processRecord cats e with
    | error err => simp [runCats, hpr]
    | ok cs1 => simp [runCats, hpr, ih]

/-- C8 counterexample: a record whose value for category a is unparseable makes the run
abort with an exception: the run has no successful outcome at all, so category b never
receives this or any later record, contradicting the claim that only that single
contribution fails and processing continues. -/
theorem C8_counterexample :
    runCats (mkCategories ["a", "b"] (some ⟨.linear ⟨5⟩, true, []⟩))
      [[("a", none), ("b", some 1)], [("a", some 2), ("b", some 2)]] =
      .error .parseError := by
  with_unfolding_all decide

/-- C8 (amended): the ValueError raised by float() on an unparseable value for a
selected key propagates out of process_entry and aborts the entire run: as soon as any
surviving category meets a record carrying an unparseable value for its key, the whole
run returns an exception (no categories are rendered and no further records are read). -/
theorem C8_parse_error_aborts_run (cats cats1 : List Category) (es1 es2 : List Entry)
    (e : Entry) (c : Category)
    (h1 : runCats cats es1 = .ok cats1) (h2 : c ∈ cats1)
    (h3 : entryLookup e c.key = some none) :
    ∃ err, runCats cats (es1 ++ e :: es2) = .error err := by
  obtain ⟨err, herr⟩ := processRecord_error h2 ⟨_, process_entry_parse_aborts h3⟩
  refine ⟨err, ?_⟩
  rw [runCats_append, h1]
  simp only [runCats, herr]

theorem C8_parse_error_aborts_run_witness :
    ∃ err, runCats [⟨"a", [], none⟩, ⟨"b", [], none⟩]
        ([] ++ [("a", (none : Option ℚ))] :: [[("b", some 1)]]) = .error err :=
  C8_parse_error_aborts_run [⟨"a", [], none⟩, ⟨"b", [], none⟩]
    [⟨"a", [], none⟩, ⟨"b", [], none⟩] [] [[("b", some 1)]] [("a", none)]
    ⟨"a", [], none⟩ rfl (List.mem_cons_self _ _) (by with_unfolding_all decide)


/-! ### intRange lemmas -/

theorem intRange_eq_nil {lo hi : ℤ} (h : hi ≤ lo) : intRange lo hi = [] := by
  unfold intRange
  have h0 : (hi - lo).toNat = 0 := by omega
  rw [h0]
  rfl

theorem intRange_eq_cons {lo hi : ℤ} (h : lo < hi) :
    intRange lo hi = lo :: intRange (lo + 1) hi := by
  unfold intRange
  have h1 : (hi - lo).toNat = (hi - (lo + 1)).toNat + 1 := by omega
  have h2 : ((fun n : ℕ => lo + (n : ℤ)) ∘ Nat.succ) = fun n : ℕ => lo + 1 + (n : ℤ) := by
    funext n
    simp only [Function.comp_apply]
    push_cast
    ring
  rw [h1, List.range_succ_eq_map, List.map_cons, List.map_map, h2]
  congr 1
  push_cast
  ring

theorem mem_intRange {j lo hi : ℤ} : j ∈ intRange lo hi ↔ lo ≤ j ∧ j < hi := by
  unfold intRange
  simp only [List.mem_map, List.mem_range]
  constructor
  · rintro ⟨n, hn, rfl⟩
    omega
  · intro h
    exact ⟨(j - lo).toNat, by omega, by omega⟩

/-! ### Python min and max of a non-empty list as left folds -/

theorem foldl_min_mem {α : Type} [LinearOrder α] (vs : List α) :
    ∀ v : α, vs.foldl min v ∈ v :: vs := by
  induction vs with
  | nil =>
    intro v
    simp
  | cons x xs ih =>
    intro v
    simp only [List.foldl_cons]
    rcases List.mem_cons.mp (ih (min v x)) with h1 | h1
    · rw [h1]
      rcases min_choice v x with hm | hm <;> rw [hm] <;> simp
    · exact List.mem_cons_of_mem _ (List.mem_cons_of_mem _ h1)

theorem foldl_min_le {α : Type} [LinearOrder α] (vs : List α) :
    ∀ (v : α), ∀ x ∈ v :: vs, vs.foldl min v ≤ x := by
  induction vs with
  | nil =>
    intro v x hx
    rcases List.mem_cons.mp hx with h1 | h0
    · rw [h1]
      exact le_refl _
    · cases h0
  | cons y ys ih =>
    intro v x hx
    simp only [List.foldl_cons]
    rcases List.mem_cons.mp hx with h1 | hx1
    · rw [h1]
      exact le_trans (ih (min v y) (min v y) (List.mem_cons_self _ _)) (min_le_left _ _)
    · rcases List.mem_cons.mp hx1 with h2 | hx2
      · rw [h2]
        exact le_trans (ih (min v y) (min v y) (List.mem_cons_self _ _)) (min_le_right _ _)
      · exact ih (min v y) x (List.mem_cons_of_mem _ hx2)

theorem foldl_max_mem {α : Type} [LinearOrder α] (vs : List α) :
    ∀ v : α, vs.foldl max v ∈ v :: vs := by
  induction vs with
  | nil =>
    intro v
    simp
  | cons x xs ih =>
    intro v
    simp only [List.foldl_cons]
    rcases List.mem_cons.mp (ih (max v x)) with h1 | h1
    · rw [h1]
      rcases max_choice v x with hm | hm <;> rw [hm] <;> simp
    · exact List.mem_cons_of_mem _ (List.mem_cons_of_mem _ h1)

theorem foldl_le_max {α : Type} [LinearOrder α] (vs : List α) :
    ∀ (v : α), ∀ x ∈ v :: vs, x ≤ vs.foldl max v := by
  induction vs with
  | nil =>
    intro v x hx
    rcases List.mem_cons.mp hx with h1 | h0
    · rw [h1]
      exact le_refl _
    · cases h0
  | cons y ys ih =>
    intro v x hx
    simp only [List.foldl_cons]
    rcases List.mem_cons.mp hx with h1 | hx1
    · rw [h1]
      exact le_trans (le_max_left _ _) (ih (max v y) (max v y) (List.mem_cons_self _ _))
    · rcases List.mem_cons.mp hx1 with h2 | hx2
      · rw [h2]
        exact le_trans (le_max_right _ _) (ih (max v y) (max v y) (List.mem_cons_self _ _))
      · exact ih (max v y) x (List.mem_cons_of_mem _ hx2)

/-! ### The rendering loop never hits the IndexError when the key list is non-empty -/

theorem histLines_isSome (t : BucketTrait) (d : Dict) (fill : Bool) :
    ∀ (n : ℕ) (lo L : ℤ) (keys : List ℤ) (hne : keys ≠ []),
      List.Sorted (· ≤ ·) keys →
      (keys.getLast hne = L ∨ ∃ k ∈ keys, k < lo) →
      (L + 1 - lo).toNat = n →
      (histLines t d fill (intRange lo (L + 1)) keys).isSome := by
  intro n
  induction n using Nat.strong_induction_on with
  | _ n ih =>
    intro lo L keys hne hsort hdisj hn
    by_cases hr : L + 1 ≤ lo
    · rw [intRange_eq_nil hr]
      cases keys with
      | nil => exact absurd rfl hne
      | cons k kt => simp [histLines]
    · push_neg at hr
      have hdec : (L + 1 - (lo + 1)).toNat < n := by omega
      rw [intRange_eq_cons hr]
      cases keys with
      | nil => exact absurd rfl hne
      | cons k ktail =>
        simp only [histLines]
        by_cases hk : lo = k
        · rw [if_pos hk]
          cases ktail with
          | nil =>
            rcases hdisj with hL | hex
            · have hkL : k = L := by simpa using hL
              rw [intRange_eq_nil (by omega)]
              simp [histLines]
            · obtain ⟨k0, hk0mem, hk0lt⟩ := hex
              simp only [List.mem_singleton] at hk0mem
              exfalso
              omega
          | cons k2 kt2 =>
            have hdisj2 : (k2 :: kt2).getLast (List.cons_ne_nil _ _) = L ∨
                ∃ k0 ∈ k2 :: kt2, k0 < lo + 1 := by
              rcases hdisj with hL | hex
              · left
                rw [← hL]
                exact (List.getLast_cons (List.cons_ne_nil k2 kt2)).symm
              · obtain ⟨k0, hk0mem, hk0lt⟩ := hex
                rcases List.mem_cons.mp hk0mem with rfl | hk0mem2
                · exfalso
                  omega
                · exact Or.inr ⟨k0, hk0mem2, by omega⟩
            have hrec := ih ((L + 1 - (lo + 1)).toNat) hdec (lo + 1) L (k2 :: kt2)
              (List.cons_ne_nil _ _) (List.sorted_cons.mp hsort).2 hdisj2 rfl
            obtain ⟨ls, hls⟩ := Option.isSome_iff_exists.mp hrec
            rw [hls]
            simp
        · rw [if_neg hk]
          have hdisj2 : (k :: ktail).getLast hne = L ∨ ∃ k0 ∈ k :: ktail, k0 < lo + 1 := by
            rcases hdisj with hL | hex
            · exact Or.inl hL
            · obtain ⟨k0, hk0mem, hk0lt⟩ := hex
              exact Or.inr ⟨k0, hk0mem, by omega⟩
          have hrec := ih ((L + 1 - (lo + 1)).toNat) hdec (lo + 1) L (k :: ktail)
            hne hsort hdisj2 rfl
          obtain ⟨ls, hls⟩ := Option.isSome_iff_exists.mp hrec
          cases fill <;> simp [hls]

/-- A Histogram with at least one recorded bucket always renders successfully. -/
theorem Histogram.render_isSome {h : Histogram} (hne : h.histogram ≠ []) :
    ∃ ls, h.render = some ls := by
  have hkeysne : h.sortedKeys ≠ [] := by
    unfold Histogram.sortedKeys
    intro h0
    apply hne
    have hperm := List.perm_insertionSort (· ≤ ·) (h.histogram.map Prod.fst)
    rw [h0] at hperm
    exact List.map_eq_nil_iff.mp hperm.symm.eq_nil
  cases hsk : h.sortedKeys with
  | nil => exact absurd hsk hkeysne
  | cons k ks =>
    have hsort : List.Sorted (· ≤ ·) (k :: ks) := by
      rw [← hsk]
      exact List.sorted_insertionSort _ _
    have hiso := histLines_isSome h.bucket_trait h.histogram h.fill_empty
      (((k :: ks).getLast (List.cons_ne_nil k ks) + 1 - 0).toNat) 0
      ((k :: ks).getLast (List.cons_ne_nil k ks)) (k :: ks) (List.cons_ne_nil k ks)
      hsort (Or.inl rfl) rfl
    obtain ⟨ls, hls⟩ := Option.isSome_iff_exists.mp hiso
    refine ⟨ls, ?_⟩
    simp only [Histogram.render, hsk]
    exact hls


/-! ### C2: the Category summary rendering -/

/-- C2: a Category with no observed values renders only its key name and a len 0 line
(no min/max/avg and no histogram block); with at least one observed value it renders the
key name, the count, the minimum and maximum of the observed values, their arithmetic
mean (sum divided by count), and finally the rendered histogram block when a Histogram
is configured.  The hypothesis is the C1 invariant relating the owned Histogram to the
observed values, which holds for every reachable Category. -/
theorem C2_category_render (c : Category)
    (hinv : ∀ hg, c.histogram = some hg → sumCounts hg.histogram = c.values.length) :
    (c.values.length = 0 → c.render = some [CatLine.keyLine c.key, CatLine.lenLine 0]) ∧
    (0 < c.values.length → ∃ m M,
      m ∈ c.values ∧ (∀ x ∈ c.values, m ≤ x) ∧
      M ∈ c.values ∧ (∀ x ∈ c.values, x ≤ M) ∧
      ((c.histogram = none ∧
          c.render = some [CatLine.keyLine c.key, CatLine.lenLine c.values.length,
            CatLine.minLine m, CatLine.maxLine M,
            CatLine.avgLine (c.values.sum / (c.values.length : ℚ))]) ∨
        (∃ hg ls, c.histogram = some hg ∧ hg.render = some ls ∧
          c.render = some [CatLine.keyLine c.key, CatLine.lenLine c.values.length,
            CatLine.minLine m, CatLine.maxLine M,
            CatLine.avgLine (c.values.sum / (c.values.length : ℚ)),
            CatLine.histBlock ls]))) := by
  constructor
  · intro hlen
    have hv : c.values = [] := List.length_eq_zero.mp hlen
    simp [Category.render, hv]
  · intro hlen
    cases hv : c.values with
    | nil =>
      rw [hv] at hlen
      simp at hlen
    | cons v vs =>
      refine ⟨vs.foldl min v, vs.foldl max v, foldl_min_mem vs v, foldl_min_le vs v,
        foldl_max_mem vs v, foldl_le_max vs v, ?_⟩
      · cases hh : c.histogram with
        | none =>
          left
          refine ⟨rfl, ?_⟩
          simp [Category.render, hv, hh]
        | some hg =>
          right
          have hsum : sumCounts hg.histogram = c.values.length := hinv hg hh
          have hgne : hg.histogram ≠ [] := by
            intro h0
            rw [h0, hv] at hsum
            simp [sumCounts] at hsum
          obtain ⟨ls, hls⟩ := Histogram.render_isSome hgne
          refine ⟨hg, ls, rfl, hls, ?_⟩
          simp [Category.render, hv, hh, hls]

theorem C2_category_render_witness :
    (sampleCat.values.length = 0 →
      sampleCat.render = some [CatLine.keyLine sampleCat.key, CatLine.lenLine 0]) ∧
    (0 < sampleCat.values.length → ∃ m M,
      m ∈ sampleCat.values ∧ (∀ x ∈ sampleCat.values, m ≤ x) ∧
      M ∈ sampleCat.values ∧ (∀ x ∈ sampleCat.values, x ≤ M) ∧
      ((sampleCat.histogram = none ∧
          sampleCat.render = some [CatLine.keyLine sampleCat.key,
            CatLine.lenLine sampleCat.values.length, CatLine.minLine m, CatLine.maxLine M,
            CatLine.avgLine (sampleCat.values.sum / (sampleCat.values.length : ℚ))]) ∨
        (∃ hg ls, sampleCat.histogram = some hg ∧ hg.render = some ls ∧
          sampleCat.render = some [CatLine.keyLine sampleCat.key,
            CatLine.lenLine sampleCat.values.length, CatLine.minLine m, CatLine.maxLine M,
            CatLine.avgLine (sampleCat.values.sum / (sampleCat.values.length : ℚ)),
            CatLine.histBlock ls]))) :=
  C2_category_render sampleCat (by
    intro hg hhg
    have h2 : sampleHist = hg := Option.some.inj hhg
    rw [← h2]
    with_unfolding_all decide)


/-! ### Sorted-list helper lemmas -/

theorem filterMap_congr_mem {α β : Type} {f g : α → Option β} :
    ∀ (l : List α), (∀ a ∈ l, f a = g a) → l.filterMap f = l.filterMap g := by
  intro l
  induction l with
  | nil => intro _; rfl
  | cons a t ih =>
    intro h
    have ha := h a (List.mem_cons_self _ _)
    have ht := ih fun b hb => h b (List.mem_cons_of_mem _ hb)
    cases hfa : f a with
    | none =>
      rw [List.filterMap_cons_none hfa,
        List.filterMap_cons_none (show g a = none by rw [← ha]; exact hfa), ht]
    | some b =>
      rw [List.filterMap_cons_some hfa,
        List.filterMap_cons_some (show g a = some b by rw [← ha]; exact hfa), ht]

theorem sorted_le_getLast :
    ∀ (l : List ℤ), List.Sorted (· ≤ ·) l → ∀ (hne : l ≠ []) (x : ℤ), x ∈ l →
      x ≤ l.getLast hne := by
  intro l
  induction l with
  | nil =>
    intro _ hne
    exact absurd rfl hne
  | cons a t ih =>
    intro hs hne x hx
    cases t with
    | nil =>
      rcases List.mem_cons.mp hx with h1 | h0
      · rw [h1]
        exact le_refl a
      · cases h0
    | cons b t2 =>
      have hgl : (a :: b :: t2).getLast hne = (b :: t2).getLast (List.cons_ne_nil _ _) :=
        List.getLast_cons _
      rw [hgl]
      rcases List.mem_cons.mp hx with h1 | h1
      · rw [h1]
        exact (List.sorted_cons.mp hs).1 _ (List.getLast_mem (List.cons_ne_nil _ _))
      · exact ih (List.sorted_cons.mp hs).2 (List.cons_ne_nil _ _) x h1

theorem sorted_lt_of_nodup {l : List ℤ} (hs : List.Sorted (· ≤ ·) l) (hnd : l.Nodup) :
    List.Sorted (· < ·) l := by
  refine (List.Pairwise.and hs hnd).imp ?_
  intro a b hab
  exact lt_of_le_of_ne hab.1 hab.2


/-! ### C3: full characterisation of the rendering loop for non-negative keys -/

theorem histLines_eq_filterMap (t : BucketTrait) (d : Dict) (fill : Bool) :
    ∀ (n : ℕ) (lo : ℤ) (keys : List ℤ) (hne : keys ≠ []),
      List.Sorted (· < ·) keys →
      (∀ k ∈ keys, lo ≤ k) →
      (keys.getLast hne + 1 - lo).toNat = n →
      histLines t d fill (intRange lo (keys.getLast hne + 1)) keys =
        some ((intRange lo (keys.getLast hne + 1)).filterMap (lineAt t d fill keys)) := by
  intro n
  induction n using Nat.strong_induction_on with
  | _ n ih =>
    intro lo keys hne hsort hlb hn
    cases keys with
    | nil => exact absurd rfl hne
    | cons k ktail =>
      obtain ⟨L, hL⟩ : ∃ L, (k :: ktail).getLast hne = L := ⟨_, rfl⟩
      have hLmem : L ∈ k :: ktail := by
        rw [← hL]
        exact List.getLast_mem hne
      have hLlo : lo ≤ L := hlb L hLmem
      have hklo : lo ≤ k := hlb k (List.mem_cons_self _ _)
      rw [hL] at hn ⊢
      rw [intRange_eq_cons (by omega)]
      simp only [histLines]
      by_cases hk : lo = k
      · rw [if_pos hk]
        have hmem : lo ∈ k :: ktail := by
          rw [hk]
          exact List.mem_cons_self _ _
        have hla : lineAt t d fill (k :: ktail) lo =
            some ⟨(t.bucket_to_range lo).1, (t.bucket_to_range lo).2, (dGet d lo).getD 0⟩ := by
          unfold lineAt
          rw [if_pos hmem]
        rw [List.filterMap_cons_some hla]
        cases ktail with
        | nil =>
          have hkL : k = L := hL
          rw [intRange_eq_nil (by omega)]
          simp [histLines]
        | cons k2 kt2 =>
          have hgl2 : (k2 :: kt2).getLast (List.cons_ne_nil _ _) = L := by
            rw [← hL]
            exact (List.getLast_cons (List.cons_ne_nil k2 kt2)).symm
          have hsort2 : List.Sorted (· < ·) (k2 :: kt2) := (List.sorted_cons.mp hsort).2
          have hgtk : ∀ x ∈ k2 :: kt2, k < x := (List.sorted_cons.mp hsort).1
          have hlb2 : ∀ x ∈ k2 :: kt2, lo + 1 ≤ x := by
            intro x hx
            have := hgtk x hx
            omega
          have hdec : ((k2 :: kt2).getLast (List.cons_ne_nil _ _) + 1 - (lo + 1)).toNat < n := by
            rw [hgl2]
            omega
          have hrec := ih ((k2 :: kt2).getLast (List.cons_ne_nil _ _) + 1 - (lo + 1)).toNat hdec
            (lo + 1) (k2 :: kt2) (List.cons_ne_nil _ _) hsort2 hlb2 rfl
          rw [hgl2] at hrec
          rw [hrec, Option.map_some']
          congr 2
          apply filterMap_congr_mem
          intro j hj
          have hj2 : lo + 1 ≤ j := (mem_intRange.mp hj).1
          unfold lineAt
          by_cases hjm : j ∈ k2 :: kt2
          · rw [if_pos hjm, if_pos (List.mem_cons_of_mem _ hjm)]
          · have hjm2 : j ∉ k :: k2 :: kt2 := by
              intro hc
              rcases List.mem_cons.mp hc with h1 | h1
              · omega
              · exact hjm h1
            rw [if_neg hjm, if_neg hjm2]
      · rw [if_neg hk]
        have hnotmem : lo ∉ k :: ktail := by
          intro hmem
          rcases List.mem_cons.mp hmem with h1 | h1
          · exact hk h1
          · have := (List.sorted_cons.mp hsort).1 lo h1
            omega
        have hlb2 : ∀ x ∈ k :: ktail, lo + 1 ≤ x := by
          intro x hx
          rcases List.mem_cons.mp hx with h1 | h1
          · omega
          · have := (List.sorted_cons.mp hsort).1 x h1
            omega
        have hdec : ((k :: ktail).getLast hne + 1 - (lo + 1)).toNat < n := by
          rw [hL]
          omega
        have hrec := ih ((k :: ktail).getLast hne + 1 - (lo + 1)).toNat hdec
          (lo + 1) (k :: ktail) hne hsort hlb2 rfl
        rw [hL] at hrec
        cases fill with
        | false =>
          rw [if_neg Bool.false_ne_true]
          have hla : lineAt t d false (k :: ktail) lo = none := by
            unfold lineAt
            rw [if_neg hnotmem, if_neg Bool.false_ne_true]
          rw [List.filterMap_cons_none hla]
          exact hrec
        | true =>
          rw [if_pos rfl]
          have hla : lineAt t d true (k :: ktail) lo =
              some ⟨(t.bucket_to_range lo).1, (t.bucket_to_range lo).2, 0⟩ := by
            unfold lineAt
            rw [if_neg hnotmem, if_pos rfl]
          rw [List.filterMap_cons_some hla, hrec, Option.map_some']


/-- C3 counterexample: a non-empty Histogram populated at buckets -1 and 1 (reachable
with linear granularity 1 from the values -1 and 1) renders the populated bucket 1 with
count 0 although its recorded count is 1, because the loop never pops a negative key,
so the claim fails for Histograms whose populated indices are not all non-negative. -/
theorem C3_counterexample :
    ((Histogram.mk (.linear ⟨1⟩) true []).add (-1)).bind (fun hh => hh.add 1) =
      some (Histogram.mk (.linear ⟨1⟩) true [(-1, 1), (1, 1)]) ∧
    dGet [(-1, 1), (1, 1)] 1 = some 1 ∧
    (Histogram.mk (.linear ⟨1⟩) true [(-1, 1), (1, 1)]).render =
      some [⟨0, 1, 0⟩, ⟨1, 2, 0⟩] := by
  with_unfolding_all decide

/-- C3 (amended): for every non-empty Histogram whose populated bucket indices are all
non-negative (and pairwise distinct, as dict keys are), render succeeds and emits
exactly the line sequence of bucket indices 0 through the maximum populated index in
ascending order, where a populated index carries its recorded count, an unpopulated
index carries count 0 when fill_empty is set and is skipped when it is not; the maximum
populated index is always printed and no index beyond it ever appears.  With a negative
populated index this fails (see the counterexample). -/
theorem C3_histogram_render_lines (h : Histogram) (hne : h.histogram ≠ [])
    (hnd : (h.histogram.map Prod.fst).Nodup) (hpos : ∀ p ∈ h.histogram, 0 ≤ p.1) :
    ∃ last, last ∈ h.histogram.map Prod.fst ∧ (∀ k ∈ h.histogram.map Prod.fst, k ≤ last) ∧
      h.render = some ((intRange 0 (last + 1)).filterMap
        (lineAt h.bucket_trait h.histogram h.fill_empty (h.histogram.map Prod.fst))) := by
  have hperm : (h.sortedKeys).Perm (h.histogram.map Prod.fst) := List.perm_insertionSort _ _
  have hsle : List.Sorted (· ≤ ·) h.sortedKeys := List.sorted_insertionSort _ _
  have hndk : h.sortedKeys.Nodup := hperm.nodup_iff.mpr hnd
  have hslt : List.Sorted (· < ·) h.sortedKeys := sorted_lt_of_nodup hsle hndk
  have hkne : h.sortedKeys ≠ [] := by
    intro h0
    apply hne
    rw [h0] at hperm
    exact List.map_eq_nil_iff.mp hperm.symm.eq_nil
  cases hsk : h.sortedKeys with
  | nil => exact absurd hsk hkne
  | cons k ks =>
    have hmemiff : ∀ j : ℤ, j ∈ k :: ks ↔ j ∈ h.histogram.map Prod.fst := by
      intro j
      rw [← hsk]
      exact hperm.mem_iff
    refine ⟨(k :: ks).getLast (List.cons_ne_nil _ _), ?_, ?_, ?_⟩
    · exact (hmemiff _).mp (List.getLast_mem (List.cons_ne_nil k ks))
    · intro k0 hk0
      have hk0s : k0 ∈ k :: ks := (hmemiff k0).mpr hk0
      exact sorted_le_getLast (k :: ks) (by rw [← hsk]; exact hsle)
        (List.cons_ne_nil _ _) k0 hk0s
    · simp only [Histogram.render, hsk]
      have hsltk : List.Sorted (· < ·) (k :: ks) := by
        rw [← hsk]
        exact hslt
      have hlb : ∀ x ∈ k :: ks, (0 : ℤ) ≤ x := by
        intro x hx
        obtain ⟨p, hp, hpe⟩ := List.mem_map.mp ((hmemiff x).mp hx)
        rw [← hpe]
        exact hpos p hp
      have heq := histLines_eq_filterMap h.bucket_trait h.histogram h.fill_empty
        (((k :: ks).getLast (List.cons_ne_nil k ks) + 1 - 0).toNat) 0 (k :: ks)
        (List.cons_ne_nil k ks) hsltk hlb rfl
      rw [heq]
      congr 1
      apply filterMap_congr_mem
      intro j hj
      unfold lineAt
      by_cases hjm : j ∈ k :: ks
      · rw [if_pos hjm, if_pos ((hmemiff j).mp hjm)]
      · rw [if_neg hjm, if_neg (fun hc => hjm ((hmemiff j).mpr hc))]

theorem C3_histogram_render_lines_witness :
    ∃ last, last ∈ sampleHist.histogram.map Prod.fst ∧
      (∀ k ∈ sampleHist.histogram.map Prod.fst, k ≤ last) ∧
      sampleHist.render = some ((intRange 0 (last + 1)).filterMap
        (lineAt sampleHist.bucket_trait sampleHist.histogram sampleHist.fill_empty
          (sampleHist.histogram.map Prod.fst))) :=
  C3_histogram_render_lines sampleHist (by with_unfolding_all decide)
    (by with_unfolding_all decide) (by with_unfolding_all decide)

end EvalGcNvp
